import Mathlib

/-!
Shallow embedding of `src/train_GTSRB.py`, a PyTorch script that fine-tunes a
ResNet classifier on the GTSRB dataset.  Real-valued quantities (learning
rates, losses, percentages) are modelled over `ℚ`; epoch and batch counters
over `ℕ` (over `ℤ` where the Python value can be negative); the network's
forward pass and the per-sample cross-entropy loss are abstract parameters.
Fallible operations (division by the size of an empty dataset, `int()`
parsing) return `Option`.
-/

/-- The learning-rate value computed inside `adjust_learning_rate`
(src/train_GTSRB.py lines 123-129): `lr` starts at the base rate `args.lr`
and is overwritten by each of the three threshold tests in turn. -/
def adjustedLR (lr0 : ℚ) (epoch : ℕ) : ℚ :=
  let lr := lr0
  let lr := if 5 ≤ epoch then lr0 * 0.1 else lr
  let lr := if 10 ≤ epoch then lr0 * 0.01 else lr
  let lr := if 15 ≤ epoch then lr0 * 0.001 else lr
  lr

/-- One entry of `optimizer.param_groups`; the script only ever touches its
learning-rate field. -/
structure ParamGroup where
  lr : ℚ
deriving DecidableEq

/-- SGD optimizer state: the param groups together with the per-parameter
momentum buffers (internal state the script never writes directly). -/
structure Optimizer where
  paramGroups : List ParamGroup
  momentumBuffers : List ℚ
deriving DecidableEq

/-- `adjust_learning_rate(optimizer, epoch)` (src lines 121-131): computes the
decayed rate from the global `args.lr` and writes it into every param group of
the optimizer, in place.  The Python function returns `None`; its in-place
update of the optimizer is modelled by returning the new optimizer state. -/
def adjust_learning_rate (lr0 : ℚ) (opt : Optimizer) (epoch : ℕ) : Optimizer :=
  { opt with
    paramGroups := opt.paramGroups.map fun g => { g with lr := adjustedLR lr0 epoch } }

/-- C1: the learning-rate schedule is the piecewise-constant step decay of
§4.1, with inclusive-lower thresholds, so the rate changes exactly at epochs
5, 10 and 15 (the witnessed changes require `lr0 ≠ 0`, since for `lr0 = 0`
all pieces coincide); being a function of `(lr0, e)` only, it is pure and
idempotent by construction. -/
theorem adjustedLR_piecewise (lr0 : ℚ) (e : ℕ) (he : 1 ≤ e) :
    (e < 5 → adjustedLR lr0 e = lr0) ∧
    (5 ≤ e → e < 10 → adjustedLR lr0 e = lr0 * 0.1) ∧
    (10 ≤ e → e < 15 → adjustedLR lr0 e = lr0 * 0.01) ∧
    (15 ≤ e → adjustedLR lr0 e = lr0 * 0.001) ∧
    (∀ k : ℕ, k + 1 ≠ 5 → k + 1 ≠ 10 → k + 1 ≠ 15 →
      adjustedLR lr0 (k + 1) = adjustedLR lr0 k) ∧
    (lr0 ≠ 0 →
      adjustedLR lr0 5 ≠ adjustedLR lr0 4 ∧
      adjustedLR lr0 10 ≠ adjustedLR lr0 9 ∧
      adjustedLR lr0 15 ≠ adjustedLR lr0 14) := by
  refine ⟨?_, ?_, ?_, ?_, ?_, ?_⟩
  · intro h; simp only [adjustedLR]
    split_ifs <;> first | rfl | omega
  · intro h1 h2; simp only [adjustedLR]
    split_ifs <;> first | rfl | omega
  · intro h1 h2; simp only [adjustedLR]
    split_ifs <;> first | rfl | omega
  · intro h1; simp only [adjustedLR]
    split_ifs <;> first | rfl | omega
  · intro k h5 h10 h15
    simp only [adjustedLR]
    split_ifs <;> first | rfl | omega
  · intro hlr0
    have e4 : adjustedLR lr0 4 = lr0 := by
      simp only [adjustedLR]; split_ifs <;> first | rfl | omega
    have e5 : adjustedLR lr0 5 = lr0 * 0.1 := by
      simp only [adjustedLR]; split_ifs <;> first | rfl | omega
    have e9 : adjustedLR lr0 9 = lr0 * 0.1 := by
      simp only [adjustedLR]; split_ifs <;> first | rfl | omega
    have e10 : adjustedLR lr0 10 = lr0 * 0.01 := by
      simp only [adjustedLR]; split_ifs <;> first | rfl | omega
    have e14 : adjustedLR lr0 14 = lr0 * 0.01 := by
      simp only [adjustedLR]; split_ifs <;> first | rfl | omega
    have e15 : adjustedLR lr0 15 = lr0 * 0.001 := by
      simp only [adjustedLR]; split_ifs <;> first | rfl | omega
    refine ⟨?_, ?_, ?_⟩
    · rw [e5, e4]; intro h; apply hlr0; nlinarith [h]
    · rw [e10, e9]; intro h; apply hlr0; nlinarith [h]
    · rw [e15, e14]; intro h; apply hlr0; nlinarith [h]

/-- Witness for C1 at `lr0 = 1/100`, `e = 7`: the schedule yields
`lr0 * 0.1` in the band `5 ≤ e < 10`. -/
theorem adjustedLR_piecewise_witness :
    adjustedLR (1/100 : ℚ) 7 = (1/100 : ℚ) * 0.1 :=
  (adjustedLR_piecewise (1/100) 7 (by norm_num)).2.1 (by norm_num) (by norm_num)

/-- C7 counterexample: `adjust_learning_rate` is not side-effect-free — at
epoch 5 it rewrites the optimizer's param-group learning rate itself, so the
optimizer state it leaves behind differs from the one it was given. -/
theorem adjust_learning_rate_mutates :
    adjust_learning_rate 1 ⟨[⟨1⟩], []⟩ 5 ≠ ⟨[⟨1⟩], []⟩ := by
  intro h
  have h1 : adjustedLR 1 5 = 1 := by
    have := congrArg Optimizer.paramGroups h
    simpa [adjust_learning_rate] using this
  have h2 : adjustedLR 1 5 = 0.1 := by
    simp only [adjustedLR]; split_ifs <;> first | omega | norm_num
  rw [h2] at h1
  norm_num at h1

/-- C7 amended: the schedule computation itself applies the decayed rate to
the optimizer — it writes `adjustedLR lr0 e` into every param group (and into
nothing else: the momentum buffers and the group count are unchanged); it
returns no value for the caller to apply. -/
theorem adjust_learning_rate_effect (lr0 : ℚ) (e : ℕ) (opt : Optimizer) :
    (adjust_learning_rate lr0 opt e).momentumBuffers = opt.momentumBuffers ∧
    (adjust_learning_rate lr0 opt e).paramGroups.length = opt.paramGroups.length ∧
    ∀ g ∈ (adjust_learning_rate lr0 opt e).paramGroups, g.lr = adjustedLR lr0 e := by
  refine ⟨rfl, by simp [adjust_learning_rate], ?_⟩
  intro g hg
  simp only [adjust_learning_rate, List.mem_map] at hg
  obtain ⟨a, _, rfl⟩ := hg
  rfl

/-- Index of the first maximal entry from position `i` onwards, given the best
index/value seen so far; models how `output.max(1, keepdim=True)[1]` resolves
ties to the first maximal index. -/
def argmaxGo (i best : ℕ) (bv : ℚ) : List ℚ → ℕ
  | [] => best
  | w :: ws => if bv < w then argmaxGo (i + 1) i w ws else argmaxGo (i + 1) best bv ws

/-- Index of the first maximal score, as `output.max(1, keepdim=True)[1]`
computes the predicted class (src lines 93, 112). -/
def argmaxIdx : List ℚ → ℕ
  | [] => 0
  | v :: vs => argmaxGo 1 0 v vs

/-- Network state: the forward function (parameters are abstracted into it,
inputs are opaque indices, outputs are class-score vectors) together with the
train/eval mode flag toggled by `model.train()` / `model.eval()`. -/
structure NetState where
  forward : ℕ → List ℚ
  training : Bool

/-- One labelled sample: an opaque input index and its integer class label. -/
abbrev Sample := ℕ × ℕ

/-- The per-batch accumulation step of `eval_train`/`eval_test`
(src lines 89-94 and 108-113): add the summed per-sample cross-entropy of the
batch (`F.cross_entropy(..., size_average=False)`, i.e. the sum, not the
mean) and the number of samples whose predicted class equals the label. -/
def evalBatchStep (ce : List ℚ → ℕ → ℚ) (f : ℕ → List ℚ) (st : ℚ × ℕ)
    (b : List Sample) : ℚ × ℕ :=
  (st.1 + (b.map fun s => ce (f s.1) s.2).sum,
   st.2 + b.countP fun s => argmaxIdx (f s.1) == s.2)

/-- `eval_train` / `eval_test` (src lines 84-100 and 103-119): switch the net
to eval mode, fold `evalBatchStep` over the batches under `torch.no_grad()`,
then divide the loss sum and the correct count by `len(loader.dataset)`.  The
Python division raises `ZeroDivisionError` on an empty dataset, modelled by
`none`.  Returns the net state left behind and the `(mean loss, accuracy)`
pair. -/
def evalPass (ce : List ℚ → ℕ → ℚ) (m : NetState) (batches : List (List Sample)) :
    NetState × Option (ℚ × ℚ) :=
  let m1 : NetState := { m with training := false }
  let acc := batches.foldl (evalBatchStep ce m1.forward) (0, 0)
  let N : ℕ := (batches.map List.length).sum
  if N = 0 then (m1, none) else (m1, some (acc.1 / N, (acc.2 : ℚ) / N))

/-- Combined model/optimizer state owned by `main` (src lines 134-138). -/
structure RunState where
  model : NetState
  optim : Optimizer

/-- An evaluation phase as `main` invokes it (src lines 149-150):
`eval_train`/`eval_test` receive only the model; the optimizer is not passed
to them at all. -/
def evalPhase (ce : List ℚ → ℕ → ℚ) (s : RunState) (batches : List (List Sample)) :
    RunState × Option (ℚ × ℚ) :=
  ({ s with model := (evalPass ce s.model batches).1 },
   (evalPass ce s.model batches).2)

/-- C4: evaluation is deterministic and side-effect-free on model parameters
and optimizer state: an evaluation phase leaves the optimizer and the forward
function (the parameters) unchanged, and running it twice consecutively on
the same dataset yields identical metrics and an identical final state (the
only state it touches at all is the train/eval mode flag). -/
theorem evalPhase_deterministic_frame (ce : List ℚ → ℕ → ℚ) (s : RunState)
    (batches : List (List Sample)) :
    (evalPhase ce s batches).1.optim = s.optim ∧
    (evalPhase ce s batches).1.model.forward = s.model.forward ∧
    (evalPhase ce (evalPhase ce s batches).1 batches).2 = (evalPhase ce s batches).2 ∧
    (evalPhase ce (evalPhase ce s batches).1 batches).1 = (evalPhase ce s batches).1 := by
  have hfst : ∀ m : NetState, (evalPass ce m batches).1 = { m with training := false } := by
    intro m; simp only [evalPass]; split_ifs <;> rfl
  have hphase : ∀ t : RunState,
      (evalPhase ce t batches).1 = { t with model := { t.model with training := false } } := by
    intro t
    show ({ t with model := (evalPass ce t.model batches).1 }) = _
    rw [hfst]
  refine ⟨rfl, ?_, ?_, ?_⟩
  · rw [hphase]
  · simp only [hphase]; rfl
  · simp only [hphase]

/-- Folding `evalBatchStep` accumulates the flattened per-sample loss sum and
the flattened correct count on top of the initial accumulator. -/
theorem evalFold_eq (ce : List ℚ → ℕ → ℚ) (f : ℕ → List ℚ)
    (batches : List (List Sample)) (l0 : ℚ) (c0 : ℕ) :
    batches.foldl (evalBatchStep ce f) (l0, c0) =
      (l0 + (batches.flatten.map fun s => ce (f s.1) s.2).sum,
       c0 + batches.flatten.countP fun s => argmaxIdx (f s.1) == s.2) := by
  induction batches generalizing l0 c0 with
  | nil => simp
  | cons b bs ih =>
      simp only [List.foldl_cons, evalBatchStep, ih, List.flatten_cons,
        List.map_append, List.sum_append, List.countP_append]
      simp [add_assoc]

/-- C5: on a non-empty dataset pass, the returned metrics are exactly
`accuracy = correct count / total sample count` and
`mean loss = (sum of per-sample losses) / total sample count` (the per-batch
contributions are sums, not means); if every sample is classified correctly,
the accuracy is exactly `1`. -/
theorem evalPass_metrics (ce : List ℚ → ℕ → ℚ) (m : NetState)
    (batches : List (List Sample)) (hN : 0 < batches.flatten.length) :
    (evalPass ce m batches).2 =
      some (((batches.flatten.map fun s => ce (m.forward s.1) s.2).sum) /
              (batches.flatten.length : ℚ),
            ((batches.flatten.countP fun s => argmaxIdx (m.forward s.1) == s.2 : ℕ) : ℚ) /
              (batches.flatten.length : ℚ)) ∧
    ((∀ s ∈ batches.flatten, argmaxIdx (m.forward s.1) = s.2) →
      ((evalPass ce m batches).2.map Prod.snd) = some 1) := by
  have hlen : (batches.map List.length).sum = batches.flatten.length :=
    (List.length_flatten batches).symm
  have hne : ¬((batches.map List.length).sum = 0) := by omega
  constructor
  · simp only [evalPass, evalFold_eq, zero_add]
    rw [if_neg hne, hlen]
  · intro hall
    have hcount : (batches.flatten.countP fun s => argmaxIdx (m.forward s.1) == s.2) =
        batches.flatten.length := by
      rw [List.countP_eq_length]
      intro a ha
      simpa using hall a ha
    have hq : ((batches.flatten.length : ℕ) : ℚ) ≠ 0 := by
      exact_mod_cast Nat.pos_iff_ne_zero.mp hN
    simp only [evalPass, evalFold_eq, zero_add]
    rw [if_neg hne, hlen, hcount]
    simp only [div_self hq]
    rfl

/-- Witness for C5: a two-batch dataset of one sample each, all classified
correctly, yields accuracy exactly `1`. -/
theorem evalPass_metrics_witness :
    ((evalPass (fun _ _ => 2) ⟨fun _ => [5], true⟩ [[(0, 0)], [(3, 0)]]).2.map
      Prod.snd) = some 1 :=
  (evalPass_metrics (fun _ _ => 2) ⟨fun _ => [5], true⟩ [[(0, 0)], [(3, 0)]]
    (by decide)).2 (by decide)

/-- C6: finalizing the metrics fails (the division raises, modelled as
`none`) exactly when the dataset split has zero samples; on every non-empty
split it succeeds with a value. -/
theorem evalPass_empty_split (ce : List ℚ → ℕ → ℚ) (m : NetState)
    (batches : List (List Sample)) :
    ((evalPass ce m batches).2 = none ↔ batches.flatten = []) ∧
    ((evalPass ce m batches).2.isSome ↔ batches.flatten ≠ []) := by
  have hlen : (batches.map List.length).sum = batches.flatten.length :=
    (List.length_flatten batches).symm
  have hiff : (batches.map List.length).sum = 0 ↔ batches.flatten = [] := by
    rw [hlen, List.length_eq_zero]
  constructor
  · simp only [evalPass]
    split_ifs with h
    · simp [hiff.mp h]
    · have hx : batches.flatten ≠ [] := fun hx => h (hiff.mpr hx)
      simp [hx]
  · simp only [evalPass]
    split_ifs with h
    · simp [hiff.mp h]
    · have hx : batches.flatten ≠ [] := fun hx => h (hiff.mpr hx)
      simp [hx]

/-- One phase of the per-epoch body of `main`'s loop (src lines 140-158). -/
inductive Phase where
  | scheduling (e : ℕ)
  | training (e : ℕ)
  | evaluatingTrain (e : ℕ)
  | evaluatingTest (e : ℕ)
  | checkpointing (e : ℕ)
deriving DecidableEq

/-- The epoch a phase belongs to. -/
def Phase.epoch : Phase → ℕ
  | .scheduling e => e
  | .training e => e
  | .evaluatingTrain e => e
  | .evaluatingTest e => e
  | .checkpointing e => e

/-- The body of one iteration of `main`'s loop (src lines 140-158), as the
ordered sequence of phases it performs for epoch `e`: adjust the learning
rate, train, evaluate on the training set, evaluate on the test set, then the
checkpoint step. -/
def epochBody (e : ℕ) : List Phase :=
  [.scheduling e, .training e, .evaluatingTrain e, .evaluatingTest e, .checkpointing e]

/-- Trace of `main`'s loop `for epoch in range(1, args.epochs + 1)`
(src line 140) run to completion with `args.epochs = E ≥ 0`; the iteration
for each epoch appends that epoch's body to the phases already executed. -/
def mainLoop (E : ℕ) : List Phase :=
  (List.range' 1 E).foldl (fun acc e => acc ++ epochBody e) []

theorem foldl_append_flatMap {α β : Type} (body : α → List β) (l : List α)
    (acc : List β) :
    l.foldl (fun a e => a ++ body e) acc = acc ++ l.flatMap body := by
  induction l generalizing acc with
  | nil => simp
  | cons x xs ih => simp [ih]

theorem mainLoop_flatMap (E : ℕ) : mainLoop E = (List.range' 1 E).flatMap epochBody := by
  simpa using foldl_append_flatMap epochBody (List.range' 1 E) []

theorem mainLoop_succ (E : ℕ) : mainLoop (E + 1) = mainLoop E ++ epochBody (E + 1) := by
  rw [mainLoop_flatMap, mainLoop_flatMap, List.range'_concat, List.flatMap_append]
  simp [Nat.add_comm]

theorem mem_epochBody (p : Phase) (e : ℕ) : p ∈ epochBody e ↔ p.epoch = e := by
  cases p <;> simp [epochBody, Phase.epoch] <;> aesop

theorem mainLoop_mem (p : Phase) (E : ℕ) :
    p ∈ mainLoop E ↔ 1 ≤ p.epoch ∧ p.epoch ≤ E := by
  rw [mainLoop_flatMap, List.mem_flatMap]
  constructor
  · rintro ⟨a, ha, hp⟩
    rw [List.mem_range'_1] at ha
    rw [mem_epochBody] at hp
    omega
  · intro h
    exact ⟨p.epoch, List.mem_range'_1.mpr (by omega), (mem_epochBody p p.epoch).mpr rfl⟩

theorem count_epochBody (p : Phase) (e : ℕ) :
    (epochBody e).count p = if p.epoch = e then 1 else 0 := by
  cases p <;> simp [epochBody, List.count_cons, Phase.epoch] <;> split_ifs <;> aesop

theorem count_flatMap_epochBody (p : Phase) (l : List ℕ) :
    (l.flatMap epochBody).count p = l.count p.epoch := by
  induction l with
  | nil => rfl
  | cons x xs ih =>
      rw [List.flatMap_cons, List.count_append, ih, count_epochBody, List.count_cons]
      by_cases hx : p.epoch = x
      · simp [hx, Nat.add_comm]
      · simp [hx]
        omega

theorem mainLoop_count (p : Phase) (E : ℕ) :
    (mainLoop E).count p = if 1 ≤ p.epoch ∧ p.epoch ≤ E then 1 else 0 := by
  rw [mainLoop_flatMap, count_flatMap_epochBody]
  rcases Nat.lt_or_ge E p.epoch with h | h
  · rw [List.count_eq_zero.mpr, if_neg (by omega)]
    rw [List.mem_range'_1]; omega
  · by_cases h1 : 1 ≤ p.epoch
    · rw [if_pos ⟨h1, h⟩]
      exact List.count_eq_one_of_mem (List.nodup_range' 1 E)
        (List.mem_range'_1.mpr (by omega))
    · rw [List.count_eq_zero.mpr, if_neg (by omega)]
      rw [List.mem_range'_1]; omega

theorem mainLoop_epoch_le (E : ℕ) : ∀ p ∈ mainLoop E, p.epoch ≤ E := by
  intro p hp
  exact ((mainLoop_mem p E).mp hp).2

theorem mainLoop_pairwise (E : ℕ) :
    List.Pairwise (fun p q => Phase.epoch p ≤ Phase.epoch q) (mainLoop E) := by
  induction E with
  | zero => simp [mainLoop]
  | succ k ih =>
      rw [mainLoop_succ, List.pairwise_append]
      refine ⟨ih, ?_, ?_⟩
      · simp [epochBody, List.pairwise_cons, Phase.epoch]
      · intro a ha b hb
        have h1 := mainLoop_epoch_le k a ha
        have h2 := (mem_epochBody b (k + 1)).mp hb
        omega

/-- C3: the loop in `main` executes epochs `1, 2, …, E` in increasing order;
within every epoch it performs exactly the phase sequence scheduling,
training, evaluating-train, evaluating-test, checkpoint step, contiguously
and each exactly once; no phase occurs for an epoch outside `1..E`; and the
trace is finite (length `5E`) and ends with the checkpoint step of epoch `E`,
i.e. the loop terminates normally after epoch `E`. -/
theorem mainLoop_schedule (E : ℕ) :
    mainLoop E = (List.range' 1 E).flatMap epochBody ∧
    (∀ e, 1 ≤ e → e ≤ E → epochBody e <:+: mainLoop E) ∧
    (∀ e, 1 ≤ e → e ≤ E →
      (mainLoop E).count (Phase.scheduling e) = 1 ∧
      (mainLoop E).count (Phase.training e) = 1 ∧
      (mainLoop E).count (Phase.evaluatingTrain e) = 1 ∧
      (mainLoop E).count (Phase.evaluatingTest e) = 1 ∧
      (mainLoop E).count (Phase.checkpointing e) = 1) ∧
    (∀ p ∈ mainLoop E, 1 ≤ p.epoch ∧ p.epoch ≤ E) ∧
    List.Pairwise (fun p q => Phase.epoch p ≤ Phase.epoch q) (mainLoop E) ∧
    (1 ≤ E → (mainLoop E).getLast? = some (Phase.checkpointing E)) ∧
    (mainLoop E).length = 5 * E := by
  refine ⟨mainLoop_flatMap E, ?_, ?_, ?_, mainLoop_pairwise E, ?_, ?_⟩
  · intro e h1 h2
    obtain ⟨s, t, hst⟩ := List.append_of_mem (List.mem_range'_1.mpr (by omega) :
      e ∈ List.range' 1 E)
    refine ⟨s.flatMap epochBody, t.flatMap epochBody, ?_⟩
    rw [mainLoop_flatMap, hst, List.flatMap_append, List.flatMap_cons, List.append_assoc]
  · intro e h1 h2
    refine ⟨?_, ?_, ?_, ?_, ?_⟩ <;>
      · rw [mainLoop_count]
        exact if_pos ⟨h1, h2⟩
  · intro p hp
    exact (mainLoop_mem p E).mp hp
  · intro hE
    obtain ⟨k, rfl⟩ : ∃ k, E = k + 1 := ⟨E - 1, by omega⟩
    rw [mainLoop_succ,
      show mainLoop k ++ epochBody (k + 1) =
        (mainLoop k ++ [Phase.scheduling (k + 1), Phase.training (k + 1),
          Phase.evaluatingTrain (k + 1), Phase.evaluatingTest (k + 1)]) ++
          [Phase.checkpointing (k + 1)] by simp [epochBody]]
    exact List.getLast?_concat _
  · induction E with
    | zero => rfl
    | succ k ih =>
        rw [mainLoop_succ, List.length_append, ih]
        simp [epochBody]
        ring

/-- Witness for C3 at `E = 3`, `e = 2`: the training phase of epoch 2 occurs
exactly once in the trace. -/
theorem mainLoop_schedule_witness : (mainLoop 3).count (Phase.training 2) = 1 :=
  ((mainLoop_schedule 3).2.2.1 2 (by decide) (by decide)).2.1

/-- A single `torch.save` call of the checkpoint step, tagged with the kind of
artifact and the epoch whose state it writes. -/
inductive CkptEvent where
  | writeModel (e : ℕ)
  | writeOpt (e : ℕ)
deriving DecidableEq

/-- Whether an event is the model-state write. -/
def CkptEvent.isModelWrite : CkptEvent → Bool
  | .writeModel _ => true
  | .writeOpt _ => false

/-- The checkpoint step of one loop iteration (src lines 153-158): when
`epoch % args.save_freq == 0`, the model state is saved first and the
optimizer state second; otherwise nothing is written. -/
def ckptStep (f e : ℕ) : List CkptEvent :=
  if e % f = 0 then [.writeModel e, .writeOpt e] else []

/-- All checkpoint write events of a full run of `main` with `args.epochs = E`
and `args.save_freq = f`, in execution order (src lines 140, 153-158). -/
def writeEvents (E f : ℕ) : List CkptEvent :=
  (List.range' 1 E).flatMap (ckptStep f)

theorem writeEvents_succ (E f : ℕ) :
    writeEvents (E + 1) f = writeEvents E f ++ ckptStep f (E + 1) := by
  unfold writeEvents
  rw [List.range'_concat, List.flatMap_append]
  simp [Nat.add_comm]

/-- The decimal digit character for `d < 10`. -/
def digitChar (d : ℕ) : Char := Char.ofNat (48 + d)

/-- Decimal rendering of a natural number, as Python's `'{}'.format(epoch)`
produces it: most-significant digit first, `"0"` for zero. -/
def decimalStr (n : ℕ) : String :=
  if n = 0 then "0" else String.mk ((Nat.digits 10 n).reverse.map digitChar)

/-- The model checkpoint file name `'model-res-epoch{}.pt'.format(epoch)`
(src line 156), relative to the model directory. -/
def modelFileName (e : ℕ) : String :=
  "model-res-epoch" ++ decimalStr e ++ ".pt"

/-- The optimizer checkpoint file name
`'opt-res-checkpoint_epoch{}.tar'.format(epoch)` (src line 158). -/
def optFileName (e : ℕ) : String :=
  "opt-res-checkpoint_epoch" ++ decimalStr e ++ ".tar"

theorem digitChar_inj : ∀ d1 < 10, ∀ d2 < 10, digitChar d1 = digitChar d2 → d1 = d2 := by
  decide

theorem map_digitChar_inj : ∀ l1 l2 : List ℕ, (∀ d ∈ l1, d < 10) → (∀ d ∈ l2, d < 10) →
    l1.map digitChar = l2.map digitChar → l1 = l2 := by
  intro l1
  induction l1 with
  | nil => intro l2 _ _ h; cases l2 <;> simp_all
  | cons x xs ih =>
      intro l2 h1 h2 h
      cases l2 with
      | nil => simp_all
      | cons y ys =>
          simp only [List.map_cons, List.cons.injEq] at h
          have hx := digitChar_inj x (h1 x (by simp)) y (h2 y (by simp)) h.1
          have := ih ys (fun d hd => h1 d (by simp [hd])) (fun d hd => h2 d (by simp [hd])) h.2
          simp [hx, this]

theorem decimalStr_inj (m n : ℕ) (h : decimalStr m = decimalStr n) : m = n := by
  have hdata := congrArg String.data h
  by_cases hm : m = 0 <;> by_cases hn : n = 0
  · omega
  · exfalso
    simp only [decimalStr, hm, hn, if_pos, if_neg, if_true] at hdata
    have : (Nat.digits 10 n).reverse.map digitChar = ['0'] := by
      simpa using hdata.symm
    have hrev : (Nat.digits 10 n).reverse = [0] := by
      have hd : ∀ d ∈ (Nat.digits 10 n).reverse, d < 10 := by
        intro d hd
        exact Nat.digits_lt_base (by norm_num) (List.mem_reverse.mp hd)
      have := map_digitChar_inj ((Nat.digits 10 n).reverse) [0] hd (by simp) (by
        simpa [digitChar] using this)
      exact this
    have hdig : Nat.digits 10 n = [0] := by
      have := congrArg List.reverse hrev
      simpa using this
    have h2 := Nat.ofDigits_digits 10 n
    rw [hdig] at h2
    simp at h2
    exact hn h2.symm
  · exfalso
    simp only [decimalStr, hm, hn, if_pos, if_neg, if_true] at hdata
    have : (Nat.digits 10 m).reverse.map digitChar = ['0'] := by
      simpa using hdata
    have hrev : (Nat.digits 10 m).reverse = [0] := by
      have hd : ∀ d ∈ (Nat.digits 10 m).reverse, d < 10 := by
        intro d hd
        exact Nat.digits_lt_base (by norm_num) (List.mem_reverse.mp hd)
      have := map_digitChar_inj ((Nat.digits 10 m).reverse) [0] hd (by simp) (by
        simpa [digitChar] using this)
      exact this
    have hdig : Nat.digits 10 m = [0] := by
      have := congrArg List.reverse hrev
      simpa using this
    have h2 := Nat.ofDigits_digits 10 m
    rw [hdig] at h2
    simp at h2
    exact hm h2.symm
  · simp only [decimalStr, hm, hn, if_neg] at hdata
    have hmap : (Nat.digits 10 m).reverse.map digitChar =
        (Nat.digits 10 n).reverse.map digitChar := hdata
    have hdm : ∀ d ∈ (Nat.digits 10 m).reverse, d < 10 := fun d hd =>
      Nat.digits_lt_base (by norm_num) (List.mem_reverse.mp hd)
    have hdn : ∀ d ∈ (Nat.digits 10 n).reverse, d < 10 := fun d hd =>
      Nat.digits_lt_base (by norm_num) (List.mem_reverse.mp hd)
    have hrev := map_digitChar_inj _ _ hdm hdn hmap
    have hdig : Nat.digits 10 m = Nat.digits 10 n := by
      have := congrArg List.reverse hrev
      simpa using this
    calc m = Nat.ofDigits 10 (Nat.digits 10 m) := (Nat.ofDigits_digits 10 m).symm
    _ = Nat.ofDigits 10 (Nat.digits 10 n) := by rw [hdig]
    _ = n := Nat.ofDigits_digits 10 n

theorem String.append_inj_middle (p s d1 d2 : String)
    (h : p ++ d1 ++ s = p ++ d2 ++ s) : d1 = d2 := by
  have hd := congrArg String.data h
  simp only [String.data_append] at hd
  have h1 : p.data ++ (d1.data ++ s.data) = p.data ++ (d2.data ++ s.data) := by
    rw [← List.append_assoc, ← List.append_assoc]
    exact hd
  have h2 : d1.data ++ s.data = d2.data ++ s.data := List.append_cancel_left h1
  have h3 : d1.data = d2.data := List.append_cancel_right h2
  cases d1; cases d2
  exact congrArg String.mk h3

theorem mem_ckptStep_model (f a e : ℕ) :
    CkptEvent.writeModel e ∈ ckptStep f a ↔ a % f = 0 ∧ a = e := by
  unfold ckptStep
  split_ifs with h <;> simp [h, eq_comm]

theorem mem_ckptStep_opt (f a e : ℕ) :
    CkptEvent.writeOpt e ∈ ckptStep f a ↔ a % f = 0 ∧ a = e := by
  unfold ckptStep
  split_ifs with h <;> simp [h, eq_comm]

theorem countP_ckptStep (f e : ℕ) (p : CkptEvent → Bool)
    (hp : p (.writeModel e) = true ∧ p (.writeOpt e) = false ∨
          p (.writeModel e) = false ∧ p (.writeOpt e) = true) :
    (ckptStep f e).countP p = if f ∣ e then 1 else 0 := by
  unfold ckptStep
  by_cases hd : f ∣ e
  · rw [if_pos (Nat.dvd_iff_mod_eq_zero.mp hd), if_pos hd]
    rcases hp with ⟨h1, h2⟩ | ⟨h1, h2⟩ <;> simp [List.countP_cons, h1, h2]
  · rw [if_neg (fun h => hd (Nat.dvd_iff_mod_eq_zero.mpr h)), if_neg hd]
    rfl

theorem writeEvents_countP (E f : ℕ) (p : CkptEvent → Bool)
    (hp : ∀ e, p (.writeModel e) = true ∧ p (.writeOpt e) = false ∨
          p (.writeModel e) = false ∧ p (.writeOpt e) = true) :
    (writeEvents E f).countP p = E / f := by
  induction E with
  | zero => simp [writeEvents]
  | succ k ih =>
      rw [writeEvents_succ, List.countP_append, ih, Nat.succ_div,
        countP_ckptStep f (k + 1) p (hp (k + 1))]

theorem writeEvents_empty (E f : ℕ) (h : E < f) : writeEvents E f = [] := by
  induction E with
  | zero => rfl
  | succ k ih =>
      rw [writeEvents_succ, ih (by omega)]
      have hm : (k + 1) % f = k + 1 := Nat.mod_eq_of_lt h
      unfold ckptStep
      rw [if_neg (by omega)]
      rfl

/-- C2: with save frequency `f ≥ 1` and `E` total epochs, a checkpoint pair
(model write then optimizer write) happens in epoch `e` iff `e % f == 0`
(equivalently at the multiples `f, 2f, 3f, …` that lie in `1..E`); exactly
`⌊E / f⌋` model-state artifacts and `⌊E / f⌋` optimizer-state artifacts are
written over the run, none at all when `f > E`; and each artifact's file name
embeds the epoch in decimal, so distinct epochs never write the same file. -/
theorem checkpoint_cadence (E f : ℕ) (hf : 1 ≤ f) :
    (∀ e, CkptEvent.writeModel e ∈ writeEvents E f ↔ 1 ≤ e ∧ e ≤ E ∧ e % f = 0) ∧
    (∀ e, CkptEvent.writeOpt e ∈ writeEvents E f ↔ 1 ≤ e ∧ e ≤ E ∧ e % f = 0) ∧
    (writeEvents E f).countP CkptEvent.isModelWrite = E / f ∧
    (writeEvents E f).countP (fun ev => !ev.isModelWrite) = E / f ∧
    (E < f → writeEvents E f = []) ∧
    (∀ e1 e2, modelFileName e1 = modelFileName e2 → e1 = e2) ∧
    (∀ e1 e2, optFileName e1 = optFileName e2 → e1 = e2) := by
  refine ⟨?_, ?_, ?_, ?_, writeEvents_empty E f, ?_, ?_⟩
  · intro e
    rw [writeEvents, List.mem_flatMap]
    constructor
    · rintro ⟨a, ha, hm⟩
      rw [List.mem_range'_1] at ha
      rw [mem_ckptStep_model] at hm
      obtain ⟨h0, rfl⟩ := hm
      exact ⟨by omega, by omega, h0⟩
    · rintro ⟨h1, h2, h0⟩
      exact ⟨e, List.mem_range'_1.mpr (by omega), (mem_ckptStep_model f e e).mpr ⟨h0, rfl⟩⟩
  · intro e
    rw [writeEvents, List.mem_flatMap]
    constructor
    · rintro ⟨a, ha, hm⟩
      rw [List.mem_range'_1] at ha
      rw [mem_ckptStep_opt] at hm
      obtain ⟨h0, rfl⟩ := hm
      exact ⟨by omega, by omega, h0⟩
    · rintro ⟨h1, h2, h0⟩
      exact ⟨e, List.mem_range'_1.mpr (by omega), (mem_ckptStep_opt f e e).mpr ⟨h0, rfl⟩⟩
  · exact writeEvents_countP E f _ (fun e => Or.inl ⟨rfl, rfl⟩)
  · exact writeEvents_countP E f _ (fun e => Or.inr ⟨rfl, rfl⟩)
  · intro e1 e2 h
    exact decimalStr_inj e1 e2 (String.append_inj_middle "model-res-epoch" ".pt" _ _ h)
  · intro e1 e2 h
    exact decimalStr_inj e1 e2
      (String.append_inj_middle "opt-res-checkpoint_epoch" ".tar" _ _ h)

/-- Witness for C2: six epochs with save frequency 2 produce exactly three
model-state writes. -/
theorem checkpoint_cadence_witness :
    (writeEvents 6 2).countP CkptEvent.isModelWrite = 3 :=
  (checkpoint_cadence 6 2 (by decide)).2.2.1

theorem writeOpt_preceded (f : ℕ) (l : List ℕ) :
    ∀ pre post e, l.flatMap (ckptStep f) = pre ++ CkptEvent.writeOpt e :: post →
      CkptEvent.writeModel e ∈ pre := by
  induction l with
  | nil =>
      intro pre post e h
      simp at h
  | cons a l ih =>
      intro pre post e h
      rw [List.flatMap_cons] at h
      unfold ckptStep at h
      split_ifs at h with ha
      · cases pre with
        | nil => simp at h
        | cons x pre' =>
            simp only [List.cons_append, List.cons.injEq] at h
            obtain ⟨rfl, h⟩ := h
            cases pre' with
            | nil =>
                simp only [List.nil_append, List.cons.injEq] at h
                obtain ⟨he, -⟩ := h
                obtain rfl : a = e := by
                  cases he
                  rfl
                simp
            | cons y pre'' =>
                simp only [List.cons_append, List.cons.injEq] at h
                obtain ⟨rfl, h⟩ := h
                have := ih pre'' post e h
                simp [this]
      · rw [List.nil_append] at h
        exact ih pre post e h

/-- C10: a checkpoint pair is not written atomically: within the checkpoint
step of an epoch `e` that is saved (`e % f = 0`, `1 ≤ e ≤ E`), the model
write and the optimizer write occur contiguously with the model write
strictly first, and in any decomposition of the run's write sequence at an
optimizer write for epoch `e`, the model write for epoch `e` already lies in
the executed prefix — so if the optimizer-state write fails, the model-state
file for that epoch has already been written. -/
theorem checkpoint_pair_not_atomic (E f e : ℕ) (hf : 1 ≤ f) (h1 : 1 ≤ e)
    (h2 : e ≤ E) (hmod : e % f = 0) :
    [CkptEvent.writeModel e, CkptEvent.writeOpt e] <:+: writeEvents E f ∧
    ∀ pre post, writeEvents E f = pre ++ CkptEvent.writeOpt e :: post →
      CkptEvent.writeModel e ∈ pre := by
  constructor
  · obtain ⟨s, t, hst⟩ := List.append_of_mem (List.mem_range'_1.mpr (by omega) :
      e ∈ List.range' 1 E)
    refine ⟨s.flatMap (ckptStep f), t.flatMap (ckptStep f), ?_⟩
    rw [writeEvents, hst, List.flatMap_append, List.flatMap_cons]
    rw [show ckptStep f e = [CkptEvent.writeModel e, CkptEvent.writeOpt e] from by
      unfold ckptStep
      rw [if_pos hmod]]
    simp [List.append_assoc]
  · intro pre post h
    exact writeOpt_preceded f (List.range' 1 E) pre post e h

/-- Witness for C10: with two epochs and save frequency 1, the write pair of
epoch 1 is a contiguous infix of the write sequence, model write first. -/
theorem checkpoint_pair_not_atomic_witness :
    [CkptEvent.writeModel 1, CkptEvent.writeOpt 1] <:+: writeEvents 2 1 :=
  (checkpoint_pair_not_atomic 2 1 1 (by decide) (by decide) (by decide) (by decide)).1

/-- The progress record printed by `train` (src lines 80-82): epoch,
`batch_idx * len(data)` samples seen, `len(train_loader.dataset)` total
samples, `100. * batch_idx / len(train_loader)` percent complete, and the
current batch loss `loss.item()`. -/
structure Progress where
  epoch : ℕ
  samplesSeen : ℕ
  totalSamples : ℕ
  percentComplete : ℚ
  currentLoss : ℚ
deriving DecidableEq

/-- The progress record `train` would print at batch index `i` of a pass over
`batches` in epoch `e`, with `bl i` the loss of batch `i` after its update
step (the network and optimizer are abstracted into `bl`). -/
def progressRecord (e : ℕ) (batches : List (List Sample)) (bl : ℕ → ℚ) (i : ℕ) :
    Progress :=
  { epoch := e
    samplesSeen := i * (batches.getD i []).length
    totalSamples := (batches.map List.length).sum
    percentComplete := 100 * (i : ℚ) / (batches.length : ℚ)
    currentLoss := bl i }

/-- The progress records emitted by one `train` pass (src lines 68, 79-82):
`enumerate(train_loader)` yields batch indices `0 .. len(train_loader) - 1`
in order, and the record is printed exactly when
`batch_idx % args.log_interval == 0`. -/
def trainLogs (L e : ℕ) (batches : List (List Sample)) (bl : ℕ → ℚ) : List Progress :=
  (List.range batches.length).filterMap fun i =>
    if i % L = 0 then some (progressRecord e batches bl i) else none

theorem filterMap_ite {α β : Type} (p : α → Prop) [DecidablePred p] (g : α → β)
    (l : List α) :
    (l.filterMap fun a => if p a then some (g a) else none) =
      (l.filter fun a => decide (p a)).map g := by
  induction l with
  | nil => rfl
  | cons x xs ih => by_cases hx : p x <;> simp [hx, ih]

/-- C9: during a training pass over `B` batches with log interval `L ≥ 1`, a
progress record is emitted exactly at the batch indices `i < B` with
`i % L = 0` — multiples of the interval, including index 0 (whenever there is
at least one batch, the very first emitted record is the one of index 0) —
and at no other batch index. -/
theorem train_progress_emission (L e : ℕ) (batches : List (List Sample))
    (bl : ℕ → ℚ) (hL : 1 ≤ L) :
    trainLogs L e batches bl =
      ((List.range batches.length).filter fun i => decide (i % L = 0)).map
        (progressRecord e batches bl) ∧
    (1 ≤ batches.length →
      (trainLogs L e batches bl).head? = some (progressRecord e batches bl 0)) ∧
    (∀ i, i < batches.length →
      (progressRecord e batches bl i ∈ trainLogs L e batches bl ↔ i % L = 0)) := by
  have hlist : trainLogs L e batches bl =
      ((List.range batches.length).filter fun i => decide (i % L = 0)).map
        (progressRecord e batches bl) := filterMap_ite _ _ _
  have hinj : ∀ i j, i < batches.length → j < batches.length →
      progressRecord e batches bl i = progressRecord e batches bl j → i = j := by
    intro i j hi hj hrec
    have hB : ((batches.length : ℕ) : ℚ) ≠ 0 := by
      have hpos : 0 < batches.length := by omega
      exact_mod_cast Nat.pos_iff_ne_zero.mp hpos
    have hp := congrArg Progress.percentComplete hrec
    simp only [progressRecord] at hp
    rw [div_eq_div_iff hB hB] at hp
    have h100 : (100 : ℚ) * i = 100 * j := mul_right_cancel₀ hB hp
    have hij : (i : ℚ) = j := by linarith
    exact_mod_cast hij
  refine ⟨hlist, ?_, ?_⟩
  · intro hB
    obtain ⟨b, hb⟩ : ∃ b, batches.length = b + 1 := ⟨batches.length - 1, by omega⟩
    rw [hlist, hb, List.range_succ_eq_map, List.filter_cons]
    simp
  · intro i hi
    constructor
    · intro hmem
      rw [hlist, List.mem_map] at hmem
      obtain ⟨j, hj, hrec⟩ := hmem
      rw [List.mem_filter, List.mem_range] at hj
      obtain ⟨hjB, hjL⟩ := hj
      have hji := hinj j i hjB hi hrec
      subst hji
      simpa using hjL
    · intro hiL
      rw [hlist, List.mem_map]
      exact ⟨i, List.mem_filter.mpr ⟨List.mem_range.mpr hi, by simpa using hiL⟩, rfl⟩

/-- Witness for C9: three batches and log interval 2 — the first emitted
record is the one of batch index 0. -/
theorem train_progress_emission_witness :
    (trainLogs 2 1 [[(0, 0)], [(1, 1)], [(2, 0)]] (fun i => (i : ℚ))).head? =
      some (progressRecord 1 [[(0, 0)], [(1, 1)], [(2, 0)]] (fun i => (i : ℚ)) 0) :=
  (train_progress_emission 2 1 [[(0, 0)], [(1, 1)], [(2, 0)]] (fun i => (i : ℚ))
    (by decide)).2.1 (by decide)

/-- Decimal-digit run parsing underlying Python's `int()`: all characters
must be digits and at least one is required. -/
def pyDigits (l : List Char) : Option ℕ :=
  if l = [] then none
  else l.foldl (fun acc c => acc.bind fun n =>
    if c.isDigit then some (n * 10 + (c.toNat - 48)) else none) (some 0)

/-- Python's `int()` conversion as argparse applies it for `type=int`
(src lines 17-18): an optional sign followed by decimal digits.  Any integer
— including a negative one — is accepted; there is no range validation
anywhere in the script.  (Python also strips whitespace and allows
underscore separators; those inputs are not modelled.) -/
def pyInt (s : String) : Option ℤ :=
  match s.data with
  | '-' :: rest => (pyDigits rest).map fun n => -(n : ℤ)
  | '+' :: rest => (pyDigits rest).map fun n => (n : ℤ)
  | l => (pyDigits l).map fun n => (n : ℤ)

/-- Python's `range(a, b)`: the integers `a, a+1, …, b-1`; empty when
`b ≤ a`. -/
def pythonRange (a b : ℤ) : List ℤ :=
  (List.range (b - a).toNat).map fun i : ℕ => a + (i : ℤ)

/-- The epochs executed by `main`'s loop
`for epoch in range(1, args.epochs + 1)` (src line 140), for an arbitrary
integer `args.epochs`. -/
def mainEpochs (epochs : ℤ) : List ℤ := pythonRange 1 (epochs + 1)

/-- The outcome of `main` as a function of the parsed `args.epochs`
(src lines 133-158): the script performs no configuration validation, and for
a non-positive epoch count the loop body is never entered and nothing before
or after it inspects `args.epochs`, so `main` returns normally — modelled as
`Except.ok` carrying the executed epochs, which corresponds to process exit
status 0; no error exit arises from the configuration value itself. -/
def mainRun (epochs : ℤ) : Except String (List ℤ) := .ok (mainEpochs epochs)

/-- The `ℕ`-indexed trace `mainLoop` agrees with the Python loop's epoch list
for non-negative `args.epochs`. -/
theorem mainEpochs_natCast (E : ℕ) :
    mainEpochs (E : ℤ) = (List.range' 1 E).map fun n : ℕ => (n : ℤ) := by
  unfold mainEpochs pythonRange
  have h0 : ((E : ℤ) + 1 - 1).toNat = E := by omega
  rw [h0]
  apply List.ext_getElem
  · simp
  · intro i h1 h2
    simp only [List.getElem_map, List.getElem_range, List.getElem_range']
    push_cast
    ring

/-- C8 counterexample: a negative epoch count is not rejected — argparse's
`int` conversion accepts `"-5"`, no startup validation exists, and the run
completes normally (exit status 0) having executed zero epochs, instead of
terminating fatally with a non-zero status. -/
theorem negative_epochs_run_normally :
    pyInt "-5" = some (-5) ∧ mainRun (-5) = Except.ok [] ∧ mainEpochs (-5) = [] := by
  refine ⟨by decide, ?_, ?_⟩ <;> rfl

/-- C8 amended: only values that fail integer parsing are rejected (by
argparse itself); an integer but non-positive epoch count passes into `main`
unvalidated, yields an empty training loop, and the process terminates
normally with exit status 0 — no validation failure and no non-zero exit
occurs. -/
theorem non_positive_epochs_terminate_normally (epochs : ℤ) (h : epochs ≤ 0) :
    mainRun epochs = Except.ok [] ∧ mainEpochs epochs = [] := by
  have h0 : (epochs + 1 - 1).toNat = 0 := by omega
  have he : mainEpochs epochs = [] := by
    unfold mainEpochs pythonRange
    rw [h0]
    rfl
  refine ⟨?_, he⟩
  unfold mainRun
  rw [he]

/-- Witness for C8's amended claim at `args.epochs = -3`. -/
theorem non_positive_epochs_witness :
    mainRun (-3) = Except.ok [] ∧ mainEpochs (-3) = [] :=
  non_positive_epochs_terminate_normally (-3) (by decide)

/-- Witness for C7's amended claim: at `lr0 = 2`, epoch 1, the momentum
buffers of a concrete optimizer are untouched. -/
theorem adjust_learning_rate_effect_witness :
    (adjust_learning_rate 2 ⟨[⟨3⟩], [4]⟩ 1).momentumBuffers = [4] :=
  (adjust_learning_rate_effect 2 1 ⟨[⟨3⟩], [4]⟩).1

/-- Witness for C6 at a concrete empty dataset: finalization yields `none`
exactly because the flattened split is empty. -/
theorem evalPass_empty_split_witness :
    (evalPass (fun _ _ => 1) ⟨fun _ => [1], true⟩ []).2 = none ↔
      ([] : List (List Sample)).flatten = [] :=
  (evalPass_empty_split (fun _ _ => 1) ⟨fun _ => [1], true⟩ []).1
